import Mathlib

/-
Verification of the resource-allocation and ledger-reconciliation core of the
account_creator repository, as a shallow embedding in Lean 4.

Conventions used throughout:
* Python strings are Lean `String`s; Python `str.lower()` / `str.strip()` are
  re-implemented over the character list (`lowerStr`, `pyStrip`) so that they
  compute by kernel reduction.
* Python `float` currency amounts and Unix timestamps are modelled as exact
  rationals (`ℚ`); the claims under study are about exact-arithmetic behaviour
  of the algorithms, not floating-point rounding.
* File-backed durable state (reserved_emails.txt, use_first_mails.txt,
  used_emails.txt, flipkart_counter.json, number_queue.txt, the margin_fees
  table) is modelled as explicit values threaded through the functions; the
  cross-process file locks serialize all mutations in the source, so the
  sequential functional semantics is the faithful model of one interleaved
  execution.
* Database / IO failure branches are not modelled: every claim is about the
  behaviour on the success path of the underlying store, which is the
  behaviour the source exhibits when psycopg2 / the filesystem do not error.
-/

/-! ### Python string primitives -/

/-- Python `str.lower()` on one ASCII character: `A`-`Z` maps to `a`-`z` and
everything else is unchanged (all data handled by the allocator is ASCII). -/
def lowerChar (c : Char) : Char :=
  if 65 ≤ c.toNat ∧ c.toNat ≤ 90 then Char.ofNat (c.toNat + 32) else c

/-- Python `str.lower()`. -/
def lowerStr (s : String) : String := ⟨s.data.map lowerChar⟩

/-- Python `str.strip()`: drop leading and trailing whitespace. -/
def pyStrip (s : String) : String :=
  ⟨((s.data.dropWhile Char.isWhitespace).reverse.dropWhile Char.isWhitespace).reverse⟩

/-- The normalisation `line.strip().lower()` applied by imap.py to every line of
reserved_emails.txt and to every alias before a reservation-registry lookup. -/
def normLine (s : String) : String := lowerStr (pyStrip s)

/-- Python `"@" in email`. -/
def hasAt (s : String) : Bool := decide ('@' ∈ s.data)

/-- Lexicographic comparison of character lists by code point, i.e. the order
Python `sorted` uses on ASCII strings. -/
def strListLe : List Char → List Char → Bool
  | [], _ => true
  | _ :: _, [] => false
  | a :: as, b :: bs =>
    if a.toNat < b.toNat then true
    else if b.toNat < a.toNat then false
    else strListLe as bs

/-- String comparison used to model Python `sorted` on a set of strings. -/
def strLeB (a b : String) : Bool := strListLe a.data b.data

/-- Ordered insertion for insertion sort with respect to `strLeB`. -/
def insertStr (x : String) : List String → List String
  | [] => [x]
  | y :: ys => if strLeB x y then x :: y :: ys else y :: insertStr x ys

/-- Insertion sort with respect to `strLeB`; models Python `sorted` applied to
a set of strings (the set being represented as a duplicate-free list). -/
def sortStrs : List String → List String
  | [] => []
  | x :: xs => insertStr x (sortStrs xs)

/-! ### Basic lemmas about the string primitives -/

theorem lowerChar_toNat_of_upper {c : Char} (h : 65 ≤ c.toNat ∧ c.toNat ≤ 90) :
    (lowerChar c).toNat = c.toNat + 32 := by
  have hv : (c.toNat + 32).isValidChar := by
    left
    omega
  simp only [lowerChar, h, and_self, if_true, if_pos]
  simp [Char.ofNat, hv]
  rfl

theorem lowerChar_eq_self_of_not_upper {c : Char} (h : ¬(65 ≤ c.toNat ∧ c.toNat ≤ 90)) :
    lowerChar c = c := by
  simp [lowerChar, h]

theorem char_eq_iff_toNat (c d : Char) : c = d ↔ c.toNat = d.toNat := by
  constructor
  · intro h; rw [h]
  · intro h; exact Char.ext (UInt32.ext h)

theorem isWhitespace_iff_toNat (c : Char) :
    c.isWhitespace = true ↔ c.toNat = 32 ∨ c.toNat = 9 ∨ c.toNat = 13 ∨ c.toNat = 10 := by
  constructor
  · intro h
    simp only [Char.isWhitespace, Bool.or_eq_true, decide_eq_true_eq] at h
    rcases h with ((h | h) | h) | h <;> subst h <;> decide
  · intro h
    simp only [Char.isWhitespace, Bool.or_eq_true, decide_eq_true_eq]
    rcases h with h | h | h | h
    · exact Or.inl (Or.inl (Or.inl ((char_eq_iff_toNat c ' ').mpr h)))
    · exact Or.inl (Or.inl (Or.inr ((char_eq_iff_toNat c '\t').mpr h)))
    · exact Or.inl (Or.inr ((char_eq_iff_toNat c '\x0d').mpr h))
    · exact Or.inr ((char_eq_iff_toNat c '\n').mpr h)

theorem lowerChar_isWhitespace (c : Char) :
    (lowerChar c).isWhitespace = c.isWhitespace := by
  by_cases h : 65 ≤ c.toNat ∧ c.toNat ≤ 90
  · have h1 : (lowerChar c).toNat = c.toNat + 32 := lowerChar_toNat_of_upper h
    have hc : c.isWhitespace = false := by
      cases hx : c.isWhitespace
      · rfl
      · rcases (isWhitespace_iff_toNat c).mp hx with h' | h' | h' | h' <;> omega
    have hl : (lowerChar c).isWhitespace = false := by
      cases hx : (lowerChar c).isWhitespace
      · rfl
      · rcases (isWhitespace_iff_toNat (lowerChar c)).mp hx with h' | h' | h' | h' <;> omega
    rw [hc, hl]
  · rw [lowerChar_eq_self_of_not_upper h]

theorem lowerChar_idem (c : Char) : lowerChar (lowerChar c) = lowerChar c := by
  by_cases h : 65 ≤ c.toNat ∧ c.toNat ≤ 90
  · have h1 : (lowerChar c).toNat = c.toNat + 32 := lowerChar_toNat_of_upper h
    apply lowerChar_eq_self_of_not_upper
    omega
  · rw [lowerChar_eq_self_of_not_upper h]
    exact lowerChar_eq_self_of_not_upper h

theorem dropWhile_map_lowerChar (l : List Char) :
    (l.map lowerChar).dropWhile Char.isWhitespace =
      (l.dropWhile Char.isWhitespace).map lowerChar := by
  induction l with
  | nil => rfl
  | cons c cs ih =>
    simp only [List.map_cons, List.dropWhile_cons, lowerChar_isWhitespace]
    by_cases h : c.isWhitespace = true
    · simp [h, ih]
    · simp [h]

theorem pyStrip_lowerStr (s : String) : pyStrip (lowerStr s) = lowerStr (pyStrip s) := by
  simp only [pyStrip, lowerStr]
  congr 1
  rw [dropWhile_map_lowerChar, ← List.map_reverse, dropWhile_map_lowerChar,
    ← List.map_reverse]

theorem lowerStr_idem (s : String) : lowerStr (lowerStr s) = lowerStr s := by
  simp only [lowerStr, List.map_map]
  congr 1
  exact List.map_congr_left fun c _ => lowerChar_idem c

theorem dropWhile_dropWhile (p : Char → Bool) (l : List Char) :
    (l.dropWhile p).dropWhile p = l.dropWhile p := by
  induction l with
  | nil => rfl
  | cons c cs ih =>
    by_cases h : p c
    · simp [List.dropWhile_cons, h, ih]
    · simp [List.dropWhile_cons, h]

theorem dropWhile_head_false (p : Char → Bool) (l : List Char) (c : Char) (cs : List Char)
    (h : l.dropWhile p = c :: cs) : p c = false := by
  induction l with
  | nil => simp at h
  | cons a as ih =>
    by_cases ha : p a
    · rw [List.dropWhile_cons, if_pos ha] at h
      exact ih h
    · rw [List.dropWhile_cons, if_neg ha] at h
      injection h with h1 h2
      subst h1
      simpa using ha

theorem dropWhile_append_singleton (p : Char → Bool) (xs : List Char) (c : Char)
    (hc : p c = false) : (xs ++ [c]).dropWhile p = xs.dropWhile p ++ [c] := by
  induction xs with
  | nil => simp [List.dropWhile_cons, hc]
  | cons a as ih =>
    by_cases ha : p a
    · simp [List.dropWhile_cons, ha, ih]
    · simp [List.dropWhile_cons, ha]

theorem pyStrip_idem (s : String) : pyStrip (pyStrip s) = pyStrip s := by
  simp only [pyStrip]
  congr 1
  cases hd : s.data.dropWhile Char.isWhitespace with
  | nil => simp
  | cons c cs =>
    have hc : Char.isWhitespace c = false := dropWhile_head_false _ _ c cs hd
    have hrev : (c :: cs).reverse = cs.reverse ++ [c] := by simp
    rw [hrev, dropWhile_append_singleton _ _ _ hc]
    have hR : (cs.reverse.dropWhile Char.isWhitespace ++ [c]).reverse =
        c :: (cs.reverse.dropWhile Char.isWhitespace).reverse := by simp
    rw [hR]
    rw [List.dropWhile_cons, if_neg (by simp [hc])]
    have : (c :: (cs.reverse.dropWhile Char.isWhitespace).reverse).reverse =
        cs.reverse.dropWhile Char.isWhitespace ++ [c] := by simp
    rw [this, dropWhile_append_singleton _ _ _ hc, dropWhile_dropWhile]
    exact hR

theorem normLine_idem (s : String) : normLine (normLine s) = normLine s := by
  simp only [normLine]
  rw [pyStrip_lowerStr, lowerStr_idem, pyStrip_idem]

theorem strListLe_total (a b : List Char) : strListLe a b = true ∨ strListLe b a = true := by
  induction a generalizing b with
  | nil => left; rfl
  | cons x xs ih =>
    cases b with
    | nil => right; rfl
    | cons y ys =>
      rcases Nat.lt_trichotomy x.toNat y.toNat with h | h | h
      · left; simp [strListLe, h]
      · have h1 : ¬x.toNat < y.toNat := by omega
        have h2 : ¬y.toNat < x.toNat := by omega
        rcases ih ys with h' | h'
        · left; simp [strListLe, h1, h2, h']
        · right; simp [strListLe, h1, h2, h']
      · right; simp [strListLe, h]

theorem strListLe_trans {a b c : List Char} (hab : strListLe a b = true)
    (hbc : strListLe b c = true) : strListLe a c = true := by
  induction a generalizing b c with
  | nil => rfl
  | cons x xs ih =>
    cases b with
    | nil => simp [strListLe] at hab
    | cons y ys =>
      cases c with
      | nil => simp [strListLe] at hbc
      | cons z zs =>
        rcases Nat.lt_trichotomy x.toNat y.toNat with hxy | hxy | hxy
        · rcases Nat.lt_trichotomy y.toNat z.toNat with hyz | hyz | hyz
          · simp [strListLe, Nat.lt_trans hxy hyz]
          · simp [strListLe, hyz ▸ hxy]
          · have h1 : ¬y.toNat < z.toNat := by omega
            simp [strListLe, h1, hyz] at hbc
        · have h1 : ¬x.toNat < y.toNat := by omega
          have h2 : ¬y.toNat < x.toNat := by omega
          simp only [strListLe, h1, h2, if_false] at hab
          rcases Nat.lt_trichotomy y.toNat z.toNat with hyz | hyz | hyz
          · simp [strListLe, hxy ▸ hyz]
          · have h3 : ¬y.toNat < z.toNat := by omega
            have h4 : ¬z.toNat < y.toNat := by omega
            simp only [strListLe, h3, h4, if_false] at hbc
            have h5 : ¬x.toNat < z.toNat := by omega
            have h6 : ¬z.toNat < x.toNat := by omega
            simp [strListLe, h5, h6, ih hab hbc]
          · have h3 : ¬y.toNat < z.toNat := by omega
            simp [strListLe, h3, hyz] at hbc
        · have h1 : ¬x.toNat < y.toNat := by omega
          simp [strListLe, h1, hxy] at hab

theorem strLeB_total (a b : String) : strLeB a b = true ∨ strLeB b a = true :=
  strListLe_total a.data b.data

theorem strLeB_trans {a b c : String} (hab : strLeB a b = true) (hbc : strLeB b c = true) :
    strLeB a c = true :=
  strListLe_trans hab hbc

theorem insertStr_perm (x : String) (l : List String) :
    List.Perm (insertStr x l) (x :: l) := by
  induction l with
  | nil => exact List.Perm.refl _
  | cons y ys ih =>
    simp only [insertStr]
    by_cases h : strLeB x y
    · rw [if_pos h]
    · rw [if_neg h]
      exact (List.Perm.cons y ih).trans (List.Perm.swap x y ys)

theorem sortStrs_perm (l : List String) : List.Perm (sortStrs l) l := by
  induction l with
  | nil => exact List.Perm.refl _
  | cons x xs ih =>
    exact (insertStr_perm x (sortStrs xs)).trans (List.Perm.cons x ih)

theorem insertStr_sorted (x : String) (l : List String)
    (hl : l.Pairwise (fun a b => strLeB a b = true)) :
    (insertStr x l).Pairwise (fun a b => strLeB a b = true) := by
  induction l with
  | nil => simp [insertStr]
  | cons y ys ih =>
    rcases List.pairwise_cons.mp hl with ⟨hy, hys⟩
    simp only [insertStr]
    by_cases h : strLeB x y
    · rw [if_pos h]
      refine List.pairwise_cons.mpr ⟨?_, hl⟩
      intro b hb
      rcases List.mem_cons.mp hb with rfl | hb
      · exact h
      · exact strLeB_trans h (hy b hb)
    · rw [if_neg h]
      refine List.pairwise_cons.mpr ⟨?_, ih hys⟩
      intro b hb
      have hb' : b ∈ x :: ys := (insertStr_perm x ys).mem_iff.mp hb
      rcases List.mem_cons.mp hb' with rfl | hb'
      · rcases strLeB_total y b with ht | ht
        · exact ht
        · exact absurd ht h
      · exact hy b hb'

theorem sortStrs_sorted (l : List String) :
    (sortStrs l).Pairwise (fun a b => strLeB a b = true) := by
  induction l with
  | nil => exact List.Pairwise.nil
  | cons x xs ih => exact insertStr_sorted x (sortStrs xs) ih

theorem sortStrs_nodup {l : List String} (hl : l.Nodup) : (sortStrs l).Nodup :=
  (List.Perm.nodup_iff (sortStrs_perm l)).mpr hl

theorem sortStrs_mem {l : List String} {x : String} : x ∈ sortStrs l ↔ x ∈ l :=
  (sortStrs_perm l).mem_iff

/-! ### Decimal rendering of counters (Python `str(int)`) -/

/-- Decimal digit character. -/
def digitChar10 : Nat → Char
  | 0 => '0'
  | 1 => '1'
  | 2 => '2'
  | 3 => '3'
  | 4 => '4'
  | 5 => '5'
  | 6 => '6'
  | 7 => '7'
  | 8 => '8'
  | _ => '9'

/-- Little-endian decimal digits of `n` (empty for 0); `fuel` bounds recursion. -/
def natDigitsRev : Nat → Nat → List Nat
  | 0, _ => []
  | fuel + 1, n => if n = 0 then [] else n % 10 :: natDigitsRev fuel (n / 10)

/-- Python `str(n)` for a natural number, e.g. the counter interpolated into
the alias in the f-string of `generate_flipkart_email`. -/
def natToStr (n : Nat) : String :=
  if n = 0 then "0" else ⟨((natDigitsRev (n + 1) n).reverse).map digitChar10⟩

/-- Value of one decimal digit character. -/
def charVal (c : Char) : Nat := c.toNat - 48

/-- Decimal parse of a digit string, most significant digit first. -/
def parseDec (s : String) : Nat := s.data.foldl (fun a c => 10 * a + charVal c) 0

theorem natDigitsRev_lt (fuel n : Nat) : ∀ d ∈ natDigitsRev fuel n, d < 10 := by
  induction fuel generalizing n with
  | zero => intro d hd; simp [natDigitsRev] at hd
  | succ fuel ih =>
    intro d hd
    by_cases h : n = 0
    · simp [natDigitsRev, h] at hd
    · simp only [natDigitsRev, h, if_false, List.mem_cons] at hd
      rcases hd with rfl | hd
      · exact Nat.mod_lt _ (by omega)
      · exact ih (n / 10) d hd

theorem natDigitsRev_foldr (fuel n : Nat) (h : n ≤ fuel) :
    (natDigitsRev fuel n).foldr (fun d a => 10 * a + d) 0 = n := by
  induction fuel generalizing n with
  | zero => interval_cases n; rfl
  | succ fuel ih =>
    by_cases h0 : n = 0
    · simp [natDigitsRev, h0]
    · have hdiv : n / 10 ≤ fuel := by
        have : n / 10 < n := Nat.div_lt_self (by omega) (by omega)
        omega
      simp only [natDigitsRev, h0, if_false, List.foldr_cons, ih (n / 10) hdiv]
      omega

theorem charVal_digitChar10 : ∀ d, d < 10 → charVal (digitChar10 d) = d := by decide

theorem foldl_digits_congr (l : List Nat) (hl : ∀ d ∈ l, d < 10) :
    ∀ x : Nat, l.foldl (fun a d => 10 * a + charVal (digitChar10 d)) x =
      l.foldl (fun a d => 10 * a + d) x := by
  induction l with
  | nil => intro x; rfl
  | cons d ds ih =>
    intro x
    have hd : d < 10 := hl d (List.mem_cons_self d ds)
    simp only [List.foldl_cons, charVal_digitChar10 d hd]
    exact ih (fun e he => hl e (List.mem_cons_of_mem d he)) _

theorem parseDec_natToStr (n : Nat) : parseDec (natToStr n) = n := by
  by_cases h0 : n = 0
  · subst h0; rfl
  · simp only [natToStr, h0, if_false, parseDec]
    rw [List.foldl_map]
    rw [foldl_digits_congr _ (fun d hd => natDigitsRev_lt (n + 1) n d (List.mem_reverse.mp hd))]
    rw [List.foldl_reverse]
    exact natDigitsRev_foldr (n + 1) n (by omega)

theorem natToStr_inj {a b : Nat} (h : natToStr a = natToStr b) : a = b := by
  have := congrArg parseDec h
  rwa [parseDec_natToStr, parseDec_natToStr] at this

theorem string_data_inj {a b : String} (h : a.data = b.data) : a = b := by
  cases a
  cases b
  exact congrArg String.mk h

theorem natToStr_chars (n : Nat) : ∀ ch ∈ (natToStr n).data, ∃ k, k < 10 ∧ ch = digitChar10 k := by
  intro ch hch
  by_cases h0 : n = 0
  · subst h0
    simp only [natToStr, if_pos rfl] at hch
    refine ⟨0, by omega, ?_⟩
    have : ch = '0' := by simpa using hch
    simp [this, digitChar10]
  · simp only [natToStr, h0, if_false] at hch
    rcases List.mem_map.mp hch with ⟨k, hk, rfl⟩
    exact ⟨k, natDigitsRev_lt _ _ k (List.mem_reverse.mp hk), rfl⟩

theorem digitChar10_not_ws : ∀ k, k < 10 → (digitChar10 k).isWhitespace = false := by decide

theorem digitChar10_lower : ∀ k, k < 10 → lowerChar (digitChar10 k) = digitChar10 k := by decide

theorem dropWhile_eq_self_of_no (p : Char → Bool) (l : List Char)
    (h : ∀ c ∈ l, p c = false) : l.dropWhile p = l := by
  cases l with
  | nil => rfl
  | cons c cs =>
    rw [List.dropWhile_cons, if_neg (by simp [h c (List.mem_cons_self c cs)])]

theorem pyStrip_eq_self (s : String) (h : ∀ c ∈ s.data, c.isWhitespace = false) :
    pyStrip s = s := by
  have h2 : ∀ c ∈ s.data.reverse, c.isWhitespace = false := fun c hc =>
    h c (List.mem_reverse.mp hc)
  simp only [pyStrip]
  rw [dropWhile_eq_self_of_no _ _ h, dropWhile_eq_self_of_no _ _ h2, List.reverse_reverse]

theorem lowerStr_eq_self (s : String) (h : ∀ c ∈ s.data, lowerChar c = c) :
    lowerStr s = s := by
  simp only [lowerStr]
  apply string_data_inj
  simpa using List.map_congr_left fun c hc => h c hc

/-- The alias minted for sequence number `n` on mail domain `domain`, i.e. the
Python f-string in imap.py interpolating the counter. -/
def aliasOf (n : Nat) (domain : String) : String :=
  "flipkart" ++ natToStr n ++ "@" ++ domain

theorem aliasOf_data (n : Nat) (d : String) :
    (aliasOf n d).data = "flipkart".data ++ ((natToStr n).data ++ ('@' :: d.data)) := by
  simp [aliasOf, String.data_append, List.append_assoc]

theorem aliasOf_inj {n m : Nat} {d : String} (h : aliasOf n d = aliasOf m d) : n = m := by
  have hd := congrArg String.data h
  rw [aliasOf_data, aliasOf_data] at hd
  have h1 := List.append_cancel_left hd
  have h2 := List.append_cancel_right h1
  exact natToStr_inj (string_data_inj h2)

theorem flipkart_chars :
    ∀ c ∈ ("flipkart" : String).data, c.isWhitespace = false ∧ lowerChar c = c := by
  decide

theorem aliasOf_chars (n : Nat) (d : String)
    (hd : ∀ c ∈ d.data, c.isWhitespace = false ∧ lowerChar c = c) :
    ∀ c ∈ (aliasOf n d).data, c.isWhitespace = false ∧ lowerChar c = c := by
  intro c hc
  rw [aliasOf_data] at hc
  rcases List.mem_append.mp hc with hf | hc2
  · exact flipkart_chars c hf
  · rcases List.mem_append.mp hc2 with hn | hrest
    · rcases natToStr_chars n c hn with ⟨k, hk, rfl⟩
      exact ⟨digitChar10_not_ws k hk, digitChar10_lower k hk⟩
    · rcases List.mem_cons.mp hrest with rfl | hdd
      · exact ⟨by decide, by decide⟩
      · exact hd c hdd

theorem normLine_aliasOf (n : Nat) (d : String)
    (hd : ∀ c ∈ d.data, c.isWhitespace = false ∧ lowerChar c = c) :
    normLine (aliasOf n d) = aliasOf n d := by
  have hall := aliasOf_chars n d hd
  simp only [normLine]
  rw [pyStrip_eq_self _ fun c h => (hall c h).1, lowerStr_eq_self _ fun c h => (hall c h).2]

theorem hasAt_aliasOf (n : Nat) (d : String) : hasAt (aliasOf n d) = true := by
  simp only [hasAt, aliasOf_data, decide_eq_true_eq]
  exact List.mem_append.mpr (Or.inr (List.mem_append.mpr (Or.inr (List.mem_cons_self _ _))))

theorem aliasOf_ne_empty (n : Nat) (d : String) : aliasOf n d ≠ "" := by
  intro h
  have := congrArg String.data h
  rw [aliasOf_data] at this
  simp at this

/-! ### imap.py: counter, reuse pool, reservation registry, allocator -/

/-- Numeric value of a list of decimal digit characters, most significant first. -/
def digitsVal (l : List Char) : Nat := l.foldl (fun a c => 10 * a + charVal c) 0

/-- Models `re.search` with pattern `flipkart(\d+)@`: scan left to right for
the literal `flipkart` followed by one or more digits followed by `@`, and
return the digit group's value. -/
def findFlipkartNum : List Char → Option Nat
  | [] => none
  | c :: rest =>
    if (c :: rest).take 8 = ("flipkart" : String).data then
      let after := (c :: rest).drop 8
      let ds := after.takeWhile Char.isDigit
      let tail2 := after.dropWhile Char.isDigit
      if ds ≠ [] ∧ tail2.head? = some '@' then some (digitsVal ds)
      else findFlipkartNum rest
    else findFlipkartNum rest

/-- Durable allocator state: the lines of the used_emails files (per-user and
global, concatenated as both are scanned), of reserved_emails.txt, of
use_first_mails.txt, and the integer in flipkart_counter.json. -/
structure AllocState where
  used : List String
  reserved : List String
  pool : List String
  counter : Nat
deriving DecidableEq, Repr

/-- imap._get_next_counter on its success path: read the stored value
(default 0), increment, persist, return the incremented value. -/
def get_next_counter (st : AllocState) : Nat × AllocState :=
  (st.counter + 1, { st with counter := st.counter + 1 })

/-- The reserved-alias set as imap._reserve_email_atomic reads it: every line
stripped and lowercased, empty lines skipped, duplicates collapsed (Python
builds a `set`). -/
def reservedSetOf (reserved : List String) : List String :=
  ((reserved.map normLine).filter (fun l => l ≠ "")).dedup

/-- imap._is_email_used_internal: true when some line of a used_emails file,
stripped and lowercased, equals the already-lowercased alias. -/
def is_email_used_internal (used : List String) (el : String) : Bool :=
  used.any (fun l => normLine l == el)

/-- imap._reserve_email_atomic: returns the Python boolean result paired with
the new contents of reserved_emails.txt (unchanged whenever reservation
fails); on success the file is rewritten as the sorted set including the
normalised alias. -/
def reserve_email_atomic (email : String) (st : AllocState) : Bool × List String :=
  if email = "" ∨ hasAt email = false then (false, st.reserved)
  else
    let el := normLine email
    let rset := reservedSetOf st.reserved
    if el ∈ rset then (false, st.reserved)
    else if is_email_used_internal st.used el then (false, st.reserved)
    else (true, sortStrs (el :: rset))

/-- imap._unreserve_email: remove the normalised alias from the reserved set
and rewrite the file sorted; when the alias is not present (or invalid) the
file is not rewritten. -/
def unreserve_email (email : String) (st : AllocState) : List String :=
  if email = "" ∨ hasAt email = false then st.reserved
  else
    let el := normLine email
    let rset := reservedSetOf st.reserved
    if el ∈ rset then sortStrs (rset.erase el) else st.reserved

/-- imap.get_and_remove_failed_email: pop the first valid (nonempty,
containing `@`) entry of use_first_mails.txt; entries before it that are
invalid are dropped by the rewrite; if the file has lines but none is valid
it is cleared; a file with no nonempty lines is returned untouched. -/
def get_and_remove_failed_email (pool : List String) : Option String × List String :=
  let entries := (pool.map pyStrip).filter (fun l => l ≠ "")
  if entries = [] then (none, pool)
  else
    match entries.filter (fun l => hasAt l) with
    | [] => (none, [])
    | e :: rest => (some e, rest)

/-- imap._find_all_missing_sequence_numbers: collect the sequence numbers
parsed from the used_emails lines and list, ascending, every number from 1 to
the maximum that is absent. -/
def find_all_missing_sequence_numbers (used : List String) : List Nat :=
  let nums := used.filterMap fun l =>
    let line := pyStrip l
    if line = "" then none else findFlipkartNum (lowerStr line).data
  if nums = [] then []
  else
    let maxn := nums.foldr max 0
    (List.range' 1 maxn).filter (fun n => ¬n ∈ nums)

/-- PRIORITY 1 loop of generate_flipkart_email: try to reserve each missing
sequence number in ascending order; the state is unchanged by failed
attempts. -/
def gapLoop (d : String) (st : AllocState) : List Nat → Option (String × AllocState)
  | [] => none
  | n :: ns =>
    match reserve_email_atomic (aliasOf n d) st with
    | (true, r) => some (aliasOf n d, { st with reserved := r })
    | (false, _) => gapLoop d st ns

/-- PRIORITY 3 loop of generate_flipkart_email: mint from the counter with at
most `fuel` attempts (`max_attempts = 100` in the source); on exhaustion the
last candidate is returned anyway after one more reservation attempt. -/
def mintLoop (d : String) : Nat → AllocState → String → String × AllocState
  | 0, st, last => (last, { st with reserved := (reserve_email_atomic last st).2 })
  | fuel + 1, st, _ =>
    let p := get_next_counter st
    match reserve_email_atomic (aliasOf p.1 d) p.2 with
    | (true, r) => (aliasOf p.1 d, { p.2 with reserved := r })
    | (false, _) => mintLoop d fuel p.2 (aliasOf p.1 d)

/-- imap.generate_flipkart_email: the allocation decision executed while the
email-generation file lock is held (imap.py lines 1445-1521; the
Supabase-config branch at lines 1380-1427 runs the same algorithm).
Priorities: 1. gap-fill missing consumed sequence numbers, 2. reuse pool
(use_first_mails.txt), 3. mint new numbers from the counter. -/
def generate_flipkart_email (d : String) (st : AllocState) : String × AllocState :=
  match gapLoop d st (find_all_missing_sequence_numbers st.used) with
  | some r => r
  | none =>
    let fp := get_and_remove_failed_email st.pool
    let st1 := { st with pool := fp.2 }
    match fp.1 with
    | some e =>
      match reserve_email_atomic e st1 with
      | (true, r) => (e, { st1 with reserved := r })
      | (false, _) => mintLoop d 100 st1 ""
    | none => mintLoop d 100 st1 ""

/-! ### app_backend.py: margin ledger, batch admission, outcome reports -/

/-- The margin_fees row of one user (the ledger account). The claims under
study always run against an existing row, so only the row-exists branch of
neon_client.atomic_margin_update is reachable. -/
structure MarginLedger where
  balance : ℚ
deriving DecidableEq

/-- neon_client.atomic_margin_update on its success path with an existing row:
under FOR UPDATE row lock, `margin_balance += amount_delta`; the new balance is
returned. -/
def atomic_margin_update (amount_delta : ℚ) (led : MarginLedger) : ℚ × MarginLedger :=
  (led.balance + amount_delta, ⟨led.balance + amount_delta⟩)

/-- app_backend.update_margin_balance on the path where the database is
enabled and atomic_margin_update succeeds: returns True and the updated
ledger. -/
def update_margin_balance (amount : ℚ) (led : MarginLedger) : Bool × MarginLedger :=
  (true, (atomic_margin_update amount led).2)

/-- Outcome of the margin-admission section of the /api/run endpoint. -/
inductive RunDecision
  | rejectedInsufficientMargin
  | accepted
deriving DecidableEq

/-- app_backend.run, lines 1098-1208 (the margin-fees section, reached after
the provider-capacity check): compute `required_margin = total_accounts *
margin_per_account`; reject with the insufficient-margin error when
`margin_balance < required_margin` (no ledger mutation happens on that path);
otherwise deduct `total_accounts * margin_per_account` up front via
update_margin_balance and only then start the worker thread. The returned
ledger is the ledger state at the moment the worker thread is spawned. -/
def run_margin_admission (total_accounts : Nat) (margin_per_account : ℚ)
    (led : MarginLedger) : RunDecision × MarginLedger :=
  let required_margin := total_accounts * margin_per_account
  if led.balance < required_margin then (.rejectedInsufficientMargin, led)
  else
    let r := update_margin_balance (-(total_accounts * margin_per_account)) led
    (.accepted, r.2)

/-- One user's entry of the in-memory `user_account_status` map. -/
structure UserStatus where
  success : Nat
  failed : Nat
  total_requested : Nat
  margin_per_account : ℚ
  reported_emails : List String
  active_emails : List String
deriving DecidableEq

/-- Python `set.add` on a set modelled as a duplicate-free list. -/
def addToSet (x : String) (l : List String) : List String :=
  if x ∈ l then l else l ++ [x]

/-- Python `set.discard` on a set modelled as a list. -/
def discardFromSet (x : String) (l : List String) : List String :=
  l.filter (fun y => y ≠ x)

/-- Status value carried by a POST to /api/account-status. -/
inductive ReportKind
  | started
  | succeeded
  | failedReport
deriving DecidableEq

/-- app_backend.api_account_status, lines 1252-1308, for a user whose entry in
`user_account_status` exists (the endpoint creates a fresh zeroed entry
otherwise, which is just a particular `UserStatus` value). `email = none`
models a request whose email field is absent or empty (falsy in Python).
For `started`: the email is added to active_emails and nothing else changes.
For success/failure: the email is discarded from active_emails, then the
duplicate check on reported_emails short-circuits; a first success increments
`success`; a first failure increments `failed` and refunds one pinned
per-account fee through update_margin_balance. -/
def api_account_status (kind : ReportKind) (email : Option String)
    (st : UserStatus) (led : MarginLedger) : UserStatus × MarginLedger :=
  match kind with
  | .started =>
    match email with
    | some e => ({ st with active_emails := addToSet e st.active_emails }, led)
    | none => (st, led)
  | .succeeded =>
    let st1 :=
      match email with
      | some e => { st with active_emails := discardFromSet e st.active_emails }
      | none => st
    let email_key :=
      match email with
      | some e => e
      | none => "account_" ++ natToStr (st.success + st.failed)
    if email_key ∈ st1.reported_emails then (st1, led)
    else
      ({ st1 with
          success := st1.success + 1,
          reported_emails := addToSet email_key st1.reported_emails }, led)
  | .failedReport =>
    let st1 :=
      match email with
      | some e => { st with active_emails := discardFromSet e st.active_emails }
      | none => st
    let email_key :=
      match email with
      | some e => e
      | none => "account_" ++ natToStr (st.success + st.failed)
    if email_key ∈ st1.reported_emails then (st1, led)
    else
      let st2 := { st1 with
        failed := st1.failed + 1,
        reported_emails := addToSet email_key st1.reported_emails }
      let r := update_margin_balance st.margin_per_account led
      (st2, r.2)

/-- The summary emitted over Socket.IO at the end of run_parallel_sessions. -/
structure BatchSummary where
  success : Nat
  failed : Nat
  total : Nat
deriving DecidableEq

/-- First half of the final reconciliation of app_backend.run_parallel_sessions
(lines 2165-2245, executed under account_status_lock when a batch ends,
normally or after a stop): compute `remaining_count = max(0, total_requested -
(success + failed))` (natural subtraction is exactly the max-with-0); when it
is positive and the pinned fee is truthy (non-None and nonzero), refund
`remaining_count * margin_per_account` in one update_margin_balance call and
fold the remainder into the failed count. The orphaned active_emails
recycling step in the same block touches only the imap files
(add_failed_email / unreserve_email) and no counter or ledger field. -/
def reconcileRefundStep (st : UserStatus) (led : MarginLedger) :
    UserStatus × MarginLedger :=
  if st.total_requested - (st.success + st.failed) > 0 ∧ st.margin_per_account ≠ 0 then
    ({ st with failed := st.failed + (st.total_requested - (st.success + st.failed)) },
      (update_margin_balance
        ((st.total_requested - (st.success + st.failed) : Nat) *
          st.margin_per_account) led).2)
  else (st, led)

/-- The validation and summary-emission tail of the reconciliation: cap the
failed count if `success + failed` would exceed `total_requested`, then build
the emitted summary. `st0` is the status as read at the start of the block
(only its success and total_requested fields are consulted here, and neither
is modified by the refund step). -/
def reconcileFinish (st0 : UserStatus) (p : UserStatus × MarginLedger) :
    (UserStatus × MarginLedger) × BatchSummary :=
  if st0.success + p.1.failed > st0.total_requested then
    (({ p.1 with failed := st0.total_requested - st0.success }, p.2),
      ⟨st0.success, st0.total_requested - st0.success,
        st0.success + (st0.total_requested - st0.success)⟩)
  else ((p.1, p.2), ⟨st0.success, p.1.failed, st0.success + p.1.failed⟩)

def run_parallel_sessions_reconcile (st : UserStatus) (led : MarginLedger) :
    (UserStatus × MarginLedger) × BatchSummary :=
  reconcileFinish st (reconcileRefundStep st led)

/-! ### Phone-number cancel queue (account_creator.py and its backend sweeper) -/

/-- One line of number_queue.txt in the new three-field format. -/
structure QueueEntry where
  request_id : String
  cancel_after : ℚ
  user_id : Nat
deriving DecidableEq

/-- account_creator.enqueue_number_for_cancel, lines 116-130: the queued
earliest-release time is `max(acquired_at + 120.0, time.time())`. -/
def enqueue_number_for_cancel (request_id : String) (acquired_at now : ℚ)
    (user_id : Nat) : QueueEntry :=
  ⟨request_id, max (acquired_at + 120) now, user_id⟩

/-- app_backend.process_number_cancel_queue_once, lines 315-399: walk the
queue; for each entry whose `cancel_after` has passed (`now >= cancel_after`)
invoke the provider cancel; a successful cancel drops the entry, a failed one
keeps it for retry; entries that are not yet due are kept untouched. Returns
the request_ids on which `caller.cancel_number` was invoked, in order,
together with the rewritten queue. `cancelOk` tells which provider calls
succeed. -/
def process_number_cancel_queue_once (now : ℚ) (cancelOk : String → Bool) :
    List QueueEntry → List String × List QueueEntry
  | [] => ([], [])
  | e :: rest =>
    let r := process_number_cancel_queue_once now cancelOk rest
    if now ≥ e.cancel_after then
      if cancelOk e.request_id then (e.request_id :: r.1, r.2)
      else (e.request_id :: r.1, e :: r.2)
    else (r.1, e :: r.2)

/-- account_creator.cancel_on_timeout, lines 335-359: when the OTP wait times
out the worker invokes `caller.cancel_number(req_id)` directly. No code path
removes the corresponding entry from number_queue.txt, so the queue is
returned unchanged; the function's provider-cancel invocations are the
singleton list. -/
def cancel_on_timeout (request_id : String) (queue : List QueueEntry) :
    List String × List QueueEntry :=
  ([request_id], queue)

/-! ### The missing stale-reservation cleanup (claim C3) -/

/-- Names of the module-level definitions of imap.py (the attributes that a
call `imap.<name>` can resolve). -/
def imapModuleDefs : List String :=
  ["safe_print", "load_imap_config", "_get_next_counter", "add_failed_email",
   "get_and_remove_failed_email", "mark_email_success", "_is_email_used",
   "_reserve_email", "_reserve_email_atomic", "_is_email_used_internal",
   "_release_email_lock", "_unreserve_email", "unreserve_email",
   "_find_missing_sequence_number", "_find_all_missing_sequence_numbers",
   "generate_flipkart_email", "decode_hdr", "otp"]

/-- run_parallel_sessions lines 2038-2044: the batch-start stale-reservation
cleanup step. The statement `imap.cleanup_stale_reservations(timeout_minutes=10)`
raises AttributeError because imap.py defines no such attribute (see
`imapModuleDefs`); the surrounding try/except prints a warning and continues,
so the reservation registry is left exactly as it was. No success branch
exists to model: no definition of cleanup_stale_reservations appears anywhere
in the repository, and reserved_emails.txt stores bare aliases with no
timestamps that could be aged against the 10-minute threshold. -/
def run_parallel_sessions_stale_cleanup (reserved : List String) : List String :=
  reserved

/-! ### Claim C1 -/

/-- C1: a batch of `total_accounts` attempts is admitted by /api/run only when
the user's margin balance is at least `total_accounts * margin_per_account`;
on insufficient margin the endpoint rejects and the ledger is untouched; on
admission the ledger state handed to the worker thread is the old balance
reduced by exactly `total_accounts * margin_per_account`. -/
theorem c1_margin_admission (total_accounts : Nat) (fee : ℚ) (led : MarginLedger) :
    ((run_margin_admission total_accounts fee led).1 = RunDecision.accepted ↔
      led.balance ≥ total_accounts * fee) ∧
    ((run_margin_admission total_accounts fee led).1 =
        RunDecision.rejectedInsufficientMargin →
      (run_margin_admission total_accounts fee led).2 = led) ∧
    ((run_margin_admission total_accounts fee led).1 = RunDecision.accepted →
      (run_margin_admission total_accounts fee led).2.balance =
        led.balance - total_accounts * fee) := by
  unfold run_margin_admission
  by_cases h : led.balance < total_accounts * fee
  · rw [if_pos h]
    refine ⟨⟨fun hc => ?_, fun hge => absurd h (not_lt.mpr hge)⟩, fun _ => rfl, fun hc => ?_⟩
    · exact absurd hc (by simp)
    · exact absurd hc (by simp)
  · rw [if_neg h]
    refine ⟨⟨fun _ => not_lt.mp h, fun _ => rfl⟩, fun hc => ?_, fun _ => ?_⟩
    · exact absurd hc (by simp)
    · show led.balance + -(total_accounts * fee) = led.balance - total_accounts * fee
      ring

theorem c1_margin_admission_witness :
    ((run_margin_admission 2 (5 / 2) ⟨6⟩).2.balance = 6 - 2 * (5 / 2)) ∧
    ((run_margin_admission 2 (5 / 2) ⟨4⟩).2 = ⟨4⟩) := by
  constructor
  · apply (c1_margin_admission 2 (5 / 2) ⟨6⟩).2.2
    simp [run_margin_admission, update_margin_balance, atomic_margin_update]
    norm_num
  · apply (c1_margin_admission 2 (5 / 2) ⟨4⟩).2.1
    simp [run_margin_admission, update_margin_balance, atomic_margin_update]
    norm_num

/-! ### Claim C10 -/

/-- C10: a `started` report with an email only adds that email to the user's
active_emails set; the success counter, the failed counter, the set of
reported emails and the margin balance are all unchanged. -/
theorem c10_started_report_frame (e : String) (st : UserStatus) (led : MarginLedger) :
    api_account_status ReportKind.started (some e) st led =
      ({ st with active_emails := addToSet e st.active_emails }, led) ∧
    (api_account_status ReportKind.started (some e) st led).1.success = st.success ∧
    (api_account_status ReportKind.started (some e) st led).1.failed = st.failed ∧
    (api_account_status ReportKind.started (some e) st led).1.reported_emails =
      st.reported_emails ∧
    (api_account_status ReportKind.started (some e) st led).2 = led :=
  ⟨rfl, rfl, rfl, rfl, rfl⟩

/-! ### Claim C5 -/

/-- C5: once an outcome has been reported for an alias (the alias is in
reported_emails), any later success or failure report for the same alias
leaves the success counter, the failed counter and the margin balance
unchanged; in particular a duplicate `failed` report produces no second
refund credit. -/
theorem c5_duplicate_outcome_report (kind : ReportKind) (e : String) (st : UserStatus)
    (led : MarginLedger) (hkind : kind ≠ ReportKind.started)
    (hrep : e ∈ st.reported_emails) :
    (api_account_status kind (some e) st led).1.success = st.success ∧
    (api_account_status kind (some e) st led).1.failed = st.failed ∧
    (api_account_status kind (some e) st led).2 = led := by
  cases kind with
  | started => exact absurd rfl hkind
  | succeeded =>
    simp only [api_account_status]
    rw [if_pos hrep]
    exact ⟨rfl, rfl, rfl⟩
  | failedReport =>
    simp only [api_account_status]
    rw [if_pos hrep]
    exact ⟨rfl, rfl, rfl⟩

theorem c5_duplicate_outcome_report_witness :
    (api_account_status ReportKind.failedReport (some "a@d.com")
        ⟨3, 1, 5, 5 / 2, ["a@d.com"], ["a@d.com"]⟩ ⟨10⟩).1.success = 3 ∧
    (api_account_status ReportKind.failedReport (some "a@d.com")
        ⟨3, 1, 5, 5 / 2, ["a@d.com"], ["a@d.com"]⟩ ⟨10⟩).1.failed = 1 ∧
    (api_account_status ReportKind.failedReport (some "a@d.com")
        ⟨3, 1, 5, 5 / 2, ["a@d.com"], ["a@d.com"]⟩ ⟨10⟩).2 = ⟨10⟩ :=
  c5_duplicate_outcome_report ReportKind.failedReport "a@d.com"
    ⟨3, 1, 5, 5 / 2, ["a@d.com"], ["a@d.com"]⟩ ⟨10⟩ (by simp)
    (List.mem_cons_self _ _)

/-- Supporting fact for C5: the first report of an outcome for an alias
records the alias in reported_emails, which is exactly the condition the
duplicate check tests later. -/
theorem first_report_marks_reported (kind : ReportKind) (e : String) (st : UserStatus)
    (led : MarginLedger) (hkind : kind ≠ ReportKind.started)
    (hnew : e ∉ st.reported_emails) :
    e ∈ (api_account_status kind (some e) st led).1.reported_emails := by
  cases kind with
  | started => exact absurd rfl hkind
  | succeeded =>
    simp only [api_account_status]
    rw [if_neg hnew]
    simp [addToSet, hnew]
  | failedReport =>
    simp only [api_account_status]
    rw [if_neg hnew]
    simp [addToSet, hnew]

/-! ### Claim C4 -/

/-- C4: when a batch ends with `k` of the requested attempts never having
reported a terminal outcome, the final reconciliation refunds exactly
`k * margin_per_account` to the ledger in one credit, increases the failed
count by exactly `k`, and the emitted summary satisfies
`succeeded + failed = total_requested`. -/
theorem reconcileFinish_of_le (st0 : UserStatus) (p : UserStatus × MarginLedger)
    (h : st0.success + p.1.failed ≤ st0.total_requested) :
    reconcileFinish st0 p =
      ((p.1, p.2), ⟨st0.success, p.1.failed, st0.success + p.1.failed⟩) := by
  unfold reconcileFinish
  rw [if_neg (by omega)]

theorem c4_stop_reconciliation (st : UserStatus) (led : MarginLedger) (k : Nat)
    (hk : st.success + st.failed + k = st.total_requested)
    (hfee : 0 < st.margin_per_account) :
    ((run_parallel_sessions_reconcile st led).1.2.balance =
      led.balance + k * st.margin_per_account) ∧
    ((run_parallel_sessions_reconcile st led).1.1.failed = st.failed + k) ∧
    ((run_parallel_sessions_reconcile st led).2.success +
        (run_parallel_sessions_reconcile st led).2.failed = st.total_requested) ∧
    ((run_parallel_sessions_reconcile st led).2 =
      ⟨st.success, st.failed + k, st.total_requested⟩) := by
  have hrem : st.total_requested - (st.success + st.failed) = k := by omega
  by_cases hk0 : k = 0
  · subst hk0
    have hcond : ¬(st.total_requested - (st.success + st.failed) > 0 ∧
        st.margin_per_account ≠ 0) := by
      rw [hrem]
      simp
    have hstep : reconcileRefundStep st led = (st, led) := by
      unfold reconcileRefundStep
      rw [if_neg hcond]
    unfold run_parallel_sessions_reconcile
    rw [hstep, reconcileFinish_of_le st (st, led)
      (show st.success + st.failed ≤ st.total_requested by omega)]
    refine ⟨?_, ?_, ?_, ?_⟩
    · show led.balance = led.balance + ((0 : ℕ) : ℚ) * st.margin_per_account
      push_cast
      ring
    · rfl
    · show st.success + st.failed = st.total_requested
      omega
    · show (⟨st.success, st.failed, st.success + st.failed⟩ : BatchSummary) =
        ⟨st.success, st.failed + 0, st.total_requested⟩
      rw [show st.success + st.failed = st.total_requested from by omega]
      rfl
  · have hcond : (st.total_requested - (st.success + st.failed) > 0 ∧
        st.margin_per_account ≠ 0) := by
      rw [hrem]
      exact ⟨by omega, ne_of_gt hfee⟩
    have hstep : reconcileRefundStep st led =
        ({ st with failed := st.failed + k },
          (update_margin_balance ((k : Nat) * st.margin_per_account) led).2) := by
      unfold reconcileRefundStep
      rw [if_pos hcond, hrem]
    unfold run_parallel_sessions_reconcile
    rw [hstep, reconcileFinish_of_le st _
      (show st.success + (st.failed + k) ≤ st.total_requested by omega)]
    refine ⟨?_, rfl, ?_, ?_⟩
    · show led.balance + (k : ℚ) * st.margin_per_account =
        led.balance + (k : ℚ) * st.margin_per_account
      rfl
    · show st.success + (st.failed + k) = st.total_requested
      omega
    · show (⟨st.success, st.failed + k, st.success + (st.failed + k)⟩ : BatchSummary) =
        ⟨st.success, st.failed + k, st.total_requested⟩
      rw [show st.success + (st.failed + k) = st.total_requested from by omega]

theorem c4_stop_reconciliation_witness :
    ((run_parallel_sessions_reconcile ⟨2, 1, 5, 5 / 2, [], []⟩ ⟨10⟩).1.2.balance =
      10 + 2 * (5 / 2)) ∧
    ((run_parallel_sessions_reconcile ⟨2, 1, 5, 5 / 2, [], []⟩ ⟨10⟩).1.1.failed = 3) ∧
    ((run_parallel_sessions_reconcile ⟨2, 1, 5, 5 / 2, [], []⟩ ⟨10⟩).2 =
      ⟨2, 3, 5⟩) := by
  have h := c4_stop_reconciliation ⟨2, 1, 5, 5 / 2, [], []⟩ ⟨10⟩ 2 (by norm_num)
    (by norm_num)
  exact ⟨h.1, h.2.1, h.2.2.2⟩

/-! ### Claim C6 -/

theorem sweep_calls_only_due (now : ℚ) (cancelOk : String → Bool) (q : List QueueEntry) :
    ∀ rid ∈ (process_number_cancel_queue_once now cancelOk q).1,
      ∃ e ∈ q, e.request_id = rid ∧ now ≥ e.cancel_after := by
  induction q with
  | nil =>
    intro rid hrid
    simp [process_number_cancel_queue_once] at hrid
  | cons e rest ih =>
    intro rid hrid
    simp only [process_number_cancel_queue_once] at hrid
    by_cases hdue : now ≥ e.cancel_after
    · rw [if_pos hdue] at hrid
      have hmem : rid ∈ e.request_id ::
          (process_number_cancel_queue_once now cancelOk rest).1 := by
        by_cases hok : cancelOk e.request_id
        · rw [if_pos hok] at hrid
          exact hrid
        · rw [if_neg hok] at hrid
          exact hrid
      rcases List.mem_cons.mp hmem with rfl | hr
      · exact ⟨e, List.mem_cons_self _ _, rfl, hdue⟩
      · rcases ih rid hr with ⟨e', he', heq, hdue'⟩
        exact ⟨e', List.mem_cons_of_mem _ he', heq, hdue'⟩
    · rw [if_neg hdue] at hrid
      rcases ih rid hrid with ⟨e', he', heq, hdue'⟩
      exact ⟨e', List.mem_cons_of_mem _ he', heq, hdue'⟩

/-- C6: the earliest-release time recorded at enqueue time is exactly
`max(acquired_at + 120, now)` (minimum hold 120 seconds), and the background
sweeper invokes the provider cancel only for request_ids whose queue entry has
`sweepNow ≥ cancel_after` - never earlier. -/
theorem c6_lease_timing (request_id : String) (acquired_at now : ℚ) (user_id : Nat)
    (sweepNow : ℚ) (cancelOk : String → Bool) (q : List QueueEntry) :
    ((enqueue_number_for_cancel request_id acquired_at now user_id).cancel_after =
      max (acquired_at + 120) now) ∧
    (∀ rid ∈ (process_number_cancel_queue_once sweepNow cancelOk q).1,
      ∃ e ∈ q, e.request_id = rid ∧ sweepNow ≥ e.cancel_after) :=
  ⟨rfl, sweep_calls_only_due sweepNow cancelOk q⟩

theorem c6_lease_timing_witness :
    ∃ e ∈ [QueueEntry.mk "R" 120 7], e.request_id = "R" ∧ (130 : ℚ) ≥ e.cancel_after := by
  apply (c6_lease_timing "R" 0 0 7 130 (fun _ => true) [QueueEntry.mk "R" 120 7]).2
  have h120 : ((130 : ℚ) ≥ 120) := by norm_num
  simp [process_number_cancel_queue_once, h120]

/-! ### Claim C3 -/

/-- C3 (code bug): imap.py defines no `cleanup_stale_reservations` attribute,
so the batch-start cleanup call of run_parallel_sessions raises
AttributeError, the surrounding try/except swallows it, the reservation
registry is returned unchanged, and a stale reserved alias still cannot be
allocated by generate_flipkart_email's reservation step afterwards. -/
theorem c3_stale_cleanup_never_runs (reserved : List String) (staleAlias : String)
    (hres : normLine staleAlias ∈ reservedSetOf reserved) :
    ("cleanup_stale_reservations" ∉ imapModuleDefs) ∧
    (run_parallel_sessions_stale_cleanup reserved = reserved) ∧
    (∀ st : AllocState, st.reserved = run_parallel_sessions_stale_cleanup reserved →
      (reserve_email_atomic staleAlias st).1 = false) := by
  refine ⟨by decide, rfl, ?_⟩
  intro st hst
  unfold reserve_email_atomic
  by_cases hv : staleAlias = "" ∨ hasAt staleAlias = false
  · rw [if_pos hv]
  · rw [if_neg hv]
    have : normLine staleAlias ∈ reservedSetOf st.reserved := by
      rw [hst]
      exact hres
    rw [if_pos this]

theorem c3_stale_cleanup_never_runs_witness :
    ("cleanup_stale_reservations" ∉ imapModuleDefs) ∧
    (reserve_email_atomic "flipkart4@d.com"
      ⟨[], ["flipkart4@d.com"], [], 0⟩).1 = false := by
  have h := c3_stale_cleanup_never_runs ["flipkart4@d.com"] "flipkart4@d.com" (by decide)
  exact ⟨h.1, h.2.2 ⟨[], ["flipkart4@d.com"], [], 0⟩ rfl⟩

/-! ### Claim C7 -/

/-- C7 counterexample: a number acquired at time 0 is enqueued with
earliest-release 120; at time 300 the worker's OTP-timeout path invokes the
provider cancel directly without touching the queue; the sweeper pass at time
310 finds the entry due and invokes cancel for the same request_id again -
two cancel invocations for one request_id, refuting release-at-most-once. -/
theorem c7_counterexample :
    (((cancel_on_timeout "R1" [enqueue_number_for_cancel "R1" 0 0 7]).1 ++
      (process_number_cancel_queue_once 310 (fun _ => true)
        (cancel_on_timeout "R1" [enqueue_number_for_cancel "R1" 0 0 7]).2).1).count
      "R1") = 2 := by
  have hmax : max ((0 : ℚ) + 120) 0 = 120 := by
    rw [max_eq_left (by norm_num)]
    norm_num
  have hdue : (310 : ℚ) ≥ (enqueue_number_for_cancel "R1" 0 0 7).cancel_after := by
    show (310 : ℚ) ≥ max ((0 : ℚ) + 120) 0
    rw [hmax]
    norm_num
  simp [cancel_on_timeout, process_number_cancel_queue_once, hdue]
  rfl

theorem sweep_remaining_subset (now : ℚ) (cancelOk : String → Bool) (q : List QueueEntry) :
    ∀ e ∈ (process_number_cancel_queue_once now cancelOk q).2, e ∈ q := by
  induction q with
  | nil =>
    intro e he
    simp [process_number_cancel_queue_once] at he
  | cons a rest ih =>
    intro e he
    simp only [process_number_cancel_queue_once] at he
    by_cases hdue : now ≥ a.cancel_after
    · rw [if_pos hdue] at he
      by_cases hok : cancelOk a.request_id
      · rw [if_pos hok] at he
        exact List.mem_cons_of_mem _ (ih e he)
      · rw [if_neg hok] at he
        rcases List.mem_cons.mp he with rfl | hr
        · exact List.mem_cons_self _ _
        · exact List.mem_cons_of_mem _ (ih e hr)
    · rw [if_neg hdue] at he
      rcases List.mem_cons.mp he with rfl | hr
      · exact List.mem_cons_self _ _
      · exact List.mem_cons_of_mem _ (ih e hr)

/-- C7 amended: per sweep pass, the sweeper invokes the provider cancel at
most once per queued request_id (the invocation list is duplicate-free when
the queue's request_ids are), and an entry whose cancel succeeded is removed
from the rewritten queue, so later sweeps never cancel it again. The original
claim fails across components because the worker's direct OTP-timeout cancel
leaves the queue entry behind (see the counterexample). -/
theorem c7_amended_sweeper_release_once (now : ℚ) (cancelOk : String → Bool)
    (q : List QueueEntry) (hnd : (q.map QueueEntry.request_id).Nodup) :
    (process_number_cancel_queue_once now cancelOk q).1.Nodup ∧
    (∀ e ∈ q, now ≥ e.cancel_after → cancelOk e.request_id = true →
      e ∉ (process_number_cancel_queue_once now cancelOk q).2) := by
  induction q with
  | nil =>
    exact ⟨List.nodup_nil, by intro e he; simp at he⟩
  | cons a rest ih =>
    have hnd' : (rest.map QueueEntry.request_id).Nodup := (List.nodup_cons.mp hnd).2
    have hanotin : a.request_id ∉ rest.map QueueEntry.request_id :=
      (List.nodup_cons.mp hnd).1
    rcases ih hnd' with ⟨ihn, ihr⟩
    have hcallssub : ∀ rid ∈ (process_number_cancel_queue_once now cancelOk rest).1,
        rid ∈ rest.map QueueEntry.request_id := by
      intro rid hrid
      rcases sweep_calls_only_due now cancelOk rest rid hrid with ⟨e, he, heq, _⟩
      exact heq ▸ List.mem_map_of_mem QueueEntry.request_id he
    constructor
    · simp only [process_number_cancel_queue_once]
      by_cases hdue : now ≥ a.cancel_after
      · rw [if_pos hdue]
        by_cases hok : cancelOk a.request_id
        · rw [if_pos hok]
          exact List.nodup_cons.mpr ⟨fun hmem => hanotin (hcallssub _ hmem), ihn⟩
        · rw [if_neg hok]
          exact List.nodup_cons.mpr ⟨fun hmem => hanotin (hcallssub _ hmem), ihn⟩
      · rw [if_neg hdue]
        exact ihn
    · intro e he hdue' hok'
      simp only [process_number_cancel_queue_once]
      rcases List.mem_cons.mp he with rfl | hr
      · rw [if_pos hdue', if_pos hok']
        intro hmem
        have := sweep_remaining_subset now cancelOk rest e hmem
        exact hanotin (List.mem_map_of_mem QueueEntry.request_id this)
      · by_cases hdue : now ≥ a.cancel_after
        · rw [if_pos hdue]
          by_cases hok : cancelOk a.request_id
          · rw [if_pos hok]
            exact ihr e hr hdue' hok'
          · rw [if_neg hok]
            intro hmem
            rcases List.mem_cons.mp hmem with rfl | hmem'
            · exact absurd hok' (by simp [hok])
            · exact ihr e hr hdue' hok' hmem'
        · rw [if_neg hdue]
          intro hmem
          rcases List.mem_cons.mp hmem with rfl | hmem'
          · exact absurd hdue' hdue
          · exact ihr e hr hdue' hok' hmem'

theorem c7_amended_sweeper_release_once_witness :
    (process_number_cancel_queue_once 130 (fun _ => true)
      [QueueEntry.mk "A" 120 1, QueueEntry.mk "B" 200 1]).1.Nodup ∧
    QueueEntry.mk "A" 120 1 ∉ (process_number_cancel_queue_once 130 (fun _ => true)
      [QueueEntry.mk "A" 120 1, QueueEntry.mk "B" 200 1]).2 := by
  have h := c7_amended_sweeper_release_once 130 (fun _ => true)
    [QueueEntry.mk "A" 120 1, QueueEntry.mk "B" 200 1] (by decide)
  exact ⟨h.1, h.2 (QueueEntry.mk "A" 120 1) (List.mem_cons_self _ _) (by norm_num) rfl⟩

/-! ### Claim C9 -/

/-- The invariant the registry file claims: sorted (by code point, as Python
`sorted` emits), duplicate-free, and every entry already in normalised form
(stripped, lowercased, nonempty). -/
def goodRegistry (l : List String) : Prop :=
  l.Pairwise (fun a b => strLeB a b = true) ∧ l.Nodup ∧ ∀ e ∈ l, normLine e = e ∧ e ≠ ""

theorem reservedSetOf_nodup (r : List String) : (reservedSetOf r).Nodup :=
  List.nodup_dedup _

theorem reservedSetOf_norm (r : List String) :
    ∀ e ∈ reservedSetOf r, normLine e = e ∧ e ≠ "" := by
  intro e he
  have he' : e ∈ (r.map normLine).filter (fun l => l ≠ "") := List.mem_dedup.mp he
  have hnl : e ∈ r.map normLine := List.mem_of_mem_filter he'
  have hne : e ≠ "" := by
    have := List.of_mem_filter he'
    simpa using this
  rcases List.mem_map.mp hnl with ⟨x, _, rfl⟩
  exact ⟨normLine_idem x, hne⟩

theorem goodRegistry_sortStrs {m : List String} (hnd : m.Nodup)
    (hn : ∀ e ∈ m, normLine e = e ∧ e ≠ "") : goodRegistry (sortStrs m) :=
  ⟨sortStrs_sorted m, sortStrs_nodup hnd, fun e he => hn e (sortStrs_mem.mp he)⟩

theorem mem_dropWhile_of_neg {p : Char → Bool} {c : Char} {l : List Char}
    (hc : c ∈ l) (hp : p c = false) : c ∈ l.dropWhile p := by
  induction l with
  | nil => simp at hc
  | cons a as ih =>
    by_cases ha : p a
    · rw [List.dropWhile_cons, if_pos ha]
      rcases List.mem_cons.mp hc with rfl | hc'
      · rw [ha] at hp
        cases hp
      · exact ih hc'
    · rw [List.dropWhile_cons, if_neg ha]
      exact hc

theorem mem_pyStrip {c : Char} {s : String} (hc : c ∈ s.data)
    (hw : c.isWhitespace = false) : c ∈ (pyStrip s).data := by
  simp only [pyStrip]
  apply List.mem_reverse.mpr
  apply mem_dropWhile_of_neg _ hw
  apply List.mem_reverse.mpr
  exact mem_dropWhile_of_neg hc hw

theorem hasAt_normLine {s : String} (h : hasAt s = true) : '@' ∈ (normLine s).data := by
  have hmem : '@' ∈ s.data := by
    simpa [hasAt] using h
  have h1 : '@' ∈ (pyStrip s).data := mem_pyStrip hmem (by decide)
  simp only [normLine, lowerStr]
  have : lowerChar '@' = '@' := by decide
  exact this ▸ List.mem_map_of_mem lowerChar h1

theorem normLine_ne_empty_of_hasAt {s : String} (h : hasAt s = true) : normLine s ≠ "" := by
  intro hemp
  have := hasAt_normLine h
  rw [hemp] at this
  simp at this

/-- C9: the reservation registry is kept as a duplicate-free, case-normalised,
sorted set. A successful reserve rewrites the file sorted, duplicate-free and
fully normalised; unreserve preserves that shape; and reserving an alias that
normalises (in particular: differs only in letter case) to an already-reserved
or already-consumed alias returns False and leaves the file unchanged. -/
theorem c9_registry_normalized (email : String) (st : AllocState) :
    ((reserve_email_atomic email st).1 = true →
      goodRegistry (reserve_email_atomic email st).2) ∧
    (goodRegistry st.reserved → goodRegistry (unreserve_email email st)) ∧
    ((∃ r ∈ st.reserved, normLine r = normLine email) →
      reserve_email_atomic email st = (false, st.reserved)) ∧
    ((∃ u ∈ st.used, normLine u = normLine email) →
      reserve_email_atomic email st = (false, st.reserved)) := by
  refine ⟨?_, ?_, ?_, ?_⟩
  · intro hok
    by_cases hv : email = "" ∨ hasAt email = false
    · unfold reserve_email_atomic at hok
      rw [if_pos hv] at hok
      cases hok
    · by_cases hmem : normLine email ∈ reservedSetOf st.reserved
      · unfold reserve_email_atomic at hok
        rw [if_neg hv, if_pos hmem] at hok
        cases hok
      · by_cases hused : is_email_used_internal st.used (normLine email) = true
        · unfold reserve_email_atomic at hok
          rw [if_neg hv, if_neg hmem, if_pos hused] at hok
          cases hok
        · have hres : reserve_email_atomic email st =
              (true, sortStrs (normLine email :: reservedSetOf st.reserved)) := by
            unfold reserve_email_atomic
            rw [if_neg hv, if_neg hmem, if_neg hused]
          rw [hres]
          have hat : hasAt email = true := by
            rcases (not_or.mp hv) with ⟨_, h2⟩
            cases hx : hasAt email
            · exact absurd hx h2
            · rfl
          apply goodRegistry_sortStrs
          · exact List.nodup_cons.mpr ⟨hmem, reservedSetOf_nodup _⟩
          · intro e he
            rcases List.mem_cons.mp he with rfl | he'
            · exact ⟨normLine_idem email, normLine_ne_empty_of_hasAt hat⟩
            · exact reservedSetOf_norm _ e he'
  · intro hgood
    by_cases hv : email = "" ∨ hasAt email = false
    · unfold unreserve_email
      rw [if_pos hv]
      exact hgood
    · unfold unreserve_email
      rw [if_neg hv]
      by_cases hmem : normLine email ∈ reservedSetOf st.reserved
      · rw [if_pos hmem]
        apply goodRegistry_sortStrs
        · exact (reservedSetOf_nodup st.reserved).erase _
        · intro e he
          exact reservedSetOf_norm _ e (List.mem_of_mem_erase he)
      · rw [if_neg hmem]
        exact hgood
  · rintro ⟨r, hr, hreq⟩
    by_cases hv : email = "" ∨ hasAt email = false
    · unfold reserve_email_atomic
      rw [if_pos hv]
    · have hat : hasAt email = true := by
        rcases (not_or.mp hv) with ⟨_, h2⟩
        cases hx : hasAt email
        · exact absurd hx h2
        · rfl
      have hne : normLine r ≠ "" := by
        rw [hreq]
        exact normLine_ne_empty_of_hasAt hat
      have hmem : normLine email ∈ reservedSetOf st.reserved := by
        rw [← hreq]
        apply List.mem_dedup.mpr
        apply List.mem_filter.mpr
        exact ⟨List.mem_map_of_mem normLine hr, by simpa using hne⟩
      unfold reserve_email_atomic
      rw [if_neg hv, if_pos hmem]
  · rintro ⟨u, hu, hueq⟩
    by_cases hv : email = "" ∨ hasAt email = false
    · unfold reserve_email_atomic
      rw [if_pos hv]
    · by_cases hmem : normLine email ∈ reservedSetOf st.reserved
      · unfold reserve_email_atomic
        rw [if_neg hv, if_pos hmem]
      · have hused : is_email_used_internal st.used (normLine email) = true := by
          unfold is_email_used_internal
          apply List.any_eq_true.mpr
          exact ⟨u, hu, by simp [hueq]⟩
        unfold reserve_email_atomic
        rw [if_neg hv, if_neg hmem, if_pos hused]

theorem c9_registry_normalized_witness :
    goodRegistry (reserve_email_atomic "NewAlias@D.com" ⟨[], ["b@d.com"], [], 0⟩).2 ∧
    (reserve_email_atomic "Flipkart4@D.com" ⟨[], ["flipkart4@d.com"], [], 0⟩ =
      (false, ["flipkart4@d.com"])) ∧
    (reserve_email_atomic "Flipkart9@D.com" ⟨["flipkart9@d.com"], [], [], 0⟩ =
      (false, [])) ∧
    goodRegistry (unreserve_email "B@d.com " ⟨[], ["a@d.com", "b@d.com"], [], 0⟩) := by
  refine ⟨?_, ?_, ?_, ?_⟩
  · exact (c9_registry_normalized "NewAlias@D.com" ⟨[], ["b@d.com"], [], 0⟩).1 (by decide)
  · exact (c9_registry_normalized "Flipkart4@D.com"
      ⟨[], ["flipkart4@d.com"], [], 0⟩).2.2.1 ⟨"flipkart4@d.com", by decide, by decide⟩
  · exact (c9_registry_normalized "Flipkart9@D.com"
      ⟨["flipkart9@d.com"], [], [], 0⟩).2.2.2 ⟨"flipkart9@d.com", by decide, by decide⟩
  · apply (c9_registry_normalized "B@d.com " ⟨[], ["a@d.com", "b@d.com"], [], 0⟩).2.1
    refine ⟨?_, by decide, by decide⟩
    refine List.pairwise_cons.mpr ⟨?_, List.pairwise_singleton _ _⟩
    intro b hb
    rw [List.mem_singleton.mp hb]
    decide

/-! ### Claim C2 -/

/-- C2 counterexample: with the reuse pool non-empty (use_first_mails.txt
holds flipkart9@d.com) and a gap in the consumed sequence (1 and 3 consumed,
2 missing), generate_flipkart_email returns the gap-filled alias
flipkart2@d.com - not an entry popped from the pool, which is left
untouched. The source labels gap-filling PRIORITY 1 and the reuse pool
PRIORITY 2. -/
theorem c2_counterexample :
    ((generate_flipkart_email "d.com"
        ⟨["flipkart1@d.com", "flipkart3@d.com"], [], ["flipkart9@d.com"], 50⟩).1 =
      "flipkart2@d.com") ∧
    ("flipkart2@d.com" ∉ (["flipkart9@d.com"] : List String)) ∧
    ((generate_flipkart_email "d.com"
        ⟨["flipkart1@d.com", "flipkart3@d.com"], [], ["flipkart9@d.com"], 50⟩).2.pool =
      ["flipkart9@d.com"]) := by
  decide

theorem gapLoop_none (d : String) (st : AllocState) (ns : List Nat)
    (h : ∀ n ∈ ns, normLine (aliasOf n d) ∈ reservedSetOf st.reserved) :
    gapLoop d st ns = none := by
  induction ns with
  | nil => rfl
  | cons n ns ih =>
    have hres : reserve_email_atomic (aliasOf n d) st = (false, st.reserved) := by
      unfold reserve_email_atomic
      rw [if_neg (by simp [aliasOf_ne_empty, hasAt_aliasOf])]
      rw [if_pos (h n (List.mem_cons_self n ns))]
    simp only [gapLoop, hres]
    exact ih fun m hm => h m (List.mem_cons_of_mem n hm)

/-- C2 amended: the reuse pool is consulted after gap-filling, not before.
Whenever every missing consumed sequence number is already reserved (in
particular whenever there is no gap at all), a valid first entry of the
non-empty reuse pool that is neither reserved nor consumed is returned,
popped from the pool, before any counter minting (the counter is untouched). -/
theorem c2_amended_pool_after_gapfill (d : String) (st : AllocState) (e : String)
    (rest : List String)
    (hGap : ∀ n ∈ find_all_missing_sequence_numbers st.used,
      normLine (aliasOf n d) ∈ reservedSetOf st.reserved)
    (hPool : get_and_remove_failed_email st.pool = (some e, rest))
    (hne : e ≠ "") (hat : hasAt e = true)
    (hfree : normLine e ∉ reservedSetOf st.reserved)
    (hunused : is_email_used_internal st.used (normLine e) = false) :
    ((generate_flipkart_email d st).1 = e) ∧
    ((generate_flipkart_email d st).2.pool = rest) ∧
    ((generate_flipkart_email d st).2.counter = st.counter) := by
  have hres : reserve_email_atomic e { st with pool := rest } =
      (true, sortStrs (normLine e :: reservedSetOf st.reserved)) := by
    unfold reserve_email_atomic
    rw [if_neg (by simp [hne, hat])]
    rw [if_neg hfree, if_neg (by simp [hunused])]
  unfold generate_flipkart_email
  rw [gapLoop_none d st _ hGap]
  simp only [hPool, hres]
  exact ⟨trivial, trivial, trivial⟩

theorem c2_amended_pool_after_gapfill_witness :
    ((generate_flipkart_email "d.com"
        ⟨["flipkart1@d.com", "flipkart2@d.com"], [], ["flipkart9@d.com"], 7⟩).1 =
      "flipkart9@d.com") ∧
    ((generate_flipkart_email "d.com"
        ⟨["flipkart1@d.com", "flipkart2@d.com"], [], ["flipkart9@d.com"], 7⟩).2.pool =
      []) ∧
    ((generate_flipkart_email "d.com"
        ⟨["flipkart1@d.com", "flipkart2@d.com"], [], ["flipkart9@d.com"], 7⟩).2.counter =
      7) := by
  exact c2_amended_pool_after_gapfill "d.com"
    ⟨["flipkart1@d.com", "flipkart2@d.com"], [], ["flipkart9@d.com"], 7⟩
    "flipkart9@d.com" [] (by decide) (by decide) (by decide) (by decide) (by decide)
    (by decide)

/-! ### Claim C8 -/

theorem reserve_email_atomic_success (email : String) (st : AllocState)
    (hne : email ≠ "") (hat : hasAt email = true)
    (hnores : normLine email ∉ reservedSetOf st.reserved)
    (hunused : is_email_used_internal st.used (normLine email) = false) :
    reserve_email_atomic email st =
      (true, sortStrs (normLine email :: reservedSetOf st.reserved)) := by
  unfold reserve_email_atomic
  rw [if_neg (by simp [hne, hat]), if_neg hnores, if_neg (by simp [hunused])]

/-- The used_emails lines of the C8 scenario: consumed sequence numbers
exactly 1, 2, 3, 5, 6. -/
def usedFive : List String :=
  ["flipkart1@d.com", "flipkart2@d.com", "flipkart3@d.com",
   "flipkart5@d.com", "flipkart6@d.com"]

theorem mintLoop_first_ok (d : String) (fuel : Nat) (st : AllocState) (last : String)
    (hok : (reserve_email_atomic (aliasOf (st.counter + 1) d)
      { st with counter := st.counter + 1 }).1 = true) :
    (mintLoop d (fuel + 1) st last).1 = aliasOf (st.counter + 1) d := by
  simp only [mintLoop, get_next_counter]
  cases hres : reserve_email_atomic (aliasOf (st.counter + 1) d)
      { st with counter := st.counter + 1 } with
  | mk b r =>
    cases b
    · rw [hres] at hok
      simp at hok
    · rfl

/-- C8: starting from consumed sequence numbers exactly 1, 2, 3, 5, 6, an
empty reuse pool, no reservations and an arbitrary counter value, the first
allocator call returns the gap alias flipkart4, and the next call returns a
freshly minted alias whose sequence number is strictly greater than 6. -/
theorem c8_gap_fill_then_mint (c : Nat) :
    ((generate_flipkart_email "d.com" ⟨usedFive, [], [], c⟩).1 = "flipkart4@d.com") ∧
    (∃ n, 6 < n ∧
      (generate_flipkart_email "d.com"
        (generate_flipkart_email "d.com" ⟨usedFive, [], [], c⟩).2).1 =
          aliasOf n "d.com") := by
  have h1 : generate_flipkart_email "d.com" ⟨usedFive, [], [], c⟩ =
      ("flipkart4@d.com", ⟨usedFive, ["flipkart4@d.com"], [], c⟩) := rfl
  constructor
  · rw [h1]
  · rw [h1]
    show ∃ n, 6 < n ∧
      (generate_flipkart_email "d.com" ⟨usedFive, ["flipkart4@d.com"], [], c⟩).1 =
        aliasOf n "d.com"
    have h2 : generate_flipkart_email "d.com" ⟨usedFive, ["flipkart4@d.com"], [], c⟩ =
        mintLoop "d.com" 100 ⟨usedFive, ["flipkart4@d.com"], [], c⟩ "" := rfl
    rw [h2]
    by_cases hc : c < 6
    · interval_cases c
      · exact ⟨7, by norm_num, by decide⟩
      · exact ⟨7, by norm_num, by decide⟩
      · exact ⟨7, by norm_num, by decide⟩
      · exact ⟨7, by norm_num, by decide⟩
      · exact ⟨7, by norm_num, by decide⟩
      · exact ⟨7, by norm_num, by decide⟩
    · push_neg at hc
      refine ⟨c + 1, by omega, ?_⟩
      have hnorm : normLine (aliasOf (c + 1) "d.com") = aliasOf (c + 1) "d.com" :=
        normLine_aliasOf (c + 1) "d.com" (by decide)
      have hnores : normLine (aliasOf (c + 1) "d.com") ∉
          reservedSetOf (["flipkart4@d.com"] : List String) := by
        rw [hnorm]
        intro hmem
        have hmem' : aliasOf (c + 1) "d.com" ∈ (["flipkart4@d.com"] : List String) := hmem
        have heq : aliasOf (c + 1) "d.com" = aliasOf 4 "d.com" :=
          List.mem_singleton.mp hmem'
        have := aliasOf_inj heq
        omega
      have hunused : is_email_used_internal usedFive
          (normLine (aliasOf (c + 1) "d.com")) = false := by
        rw [hnorm]
        cases hx : is_email_used_internal usedFive (aliasOf (c + 1) "d.com")
        · rfl
        · exfalso
          rcases List.any_eq_true.mp hx with ⟨x, hxmem, hpx⟩
          fin_cases hxmem
          · have heq : aliasOf 1 "d.com" = aliasOf (c + 1) "d.com" := eq_of_beq hpx
            have := aliasOf_inj heq
            omega
          · have heq : aliasOf 2 "d.com" = aliasOf (c + 1) "d.com" := eq_of_beq hpx
            have := aliasOf_inj heq
            omega
          · have heq : aliasOf 3 "d.com" = aliasOf (c + 1) "d.com" := eq_of_beq hpx
            have := aliasOf_inj heq
            omega
          · have heq : aliasOf 5 "d.com" = aliasOf (c + 1) "d.com" := eq_of_beq hpx
            have := aliasOf_inj heq
            omega
          · have heq : aliasOf 6 "d.com" = aliasOf (c + 1) "d.com" := eq_of_beq hpx
            have := aliasOf_inj heq
            omega
      have hok : (reserve_email_atomic (aliasOf (c + 1) "d.com")
          ⟨usedFive, ["flipkart4@d.com"], [], c + 1⟩).1 = true := by
        rw [reserve_email_atomic_success (aliasOf (c + 1) "d.com")
          ⟨usedFive, ["flipkart4@d.com"], [], c + 1⟩ (aliasOf_ne_empty _ _)
          (hasAt_aliasOf _ _) hnores hunused]
      exact mintLoop_first_ok "d.com" 99 ⟨usedFive, ["flipkart4@d.com"], [], c⟩ "" hok
